import Mathlib

set_option maxRecDepth 100000

/-!
Verification of the rl-swarm core against its specification.

This file gives a shallow embedding, in Lean 4, of the three mechanisms of the
rl-swarm repository that the specification describes:

* the wire codec of `web/api/game_tree.py` (`to_bytes` / `from_bytes`);
* the gossip publishing cycle of `web/api/dht_pub.py`
  (`GossipDHTPublisher._poll_once` / `_publish_gossip`);
* the round barrier and reward-submission controller of
  `rgym_exp/src/manager.py` (`SwarmGameManager.agent_block`,
  `_try_submit_to_chain`, `_hook_after_rewards_updated`,
  `_hook_after_round_advanced`).

Modelling conventions, used throughout:

* Python `bytes` values are `List Nat` with entries below 256; slicing
  `b[i:i+n]` is `slice b i n`, which silently truncates exactly as Python does.
* Python `str` values are their UTF-8 byte sequences (`List Nat`); all string
  literals appearing in the claims are ASCII, written with `ascii`.  UTF-8
  validation performed by `bytes.decode("utf-8")` is not modelled: every byte
  sequence handled by the theorems below is valid UTF-8.
* Python `float` values are identified with their IEEE-754 binary64 bit
  patterns (a `Nat` below `2 ^ 64`); `struct.pack('>d', x)` writes those 8
  bytes big-endian and `struct.unpack` reads them back, which is exact.
* Python `int` arithmetic is `Int`; machine truncation points carry an
  explicit `% 2 ^ w`.
* The decoder of `game_tree.py` terminates on every input because every
  nested `_from_bytes` call starts at least 8 bytes further into the buffer.
  The embedding makes this explicit with a `fuel` parameter decremented on
  every nested call and loop step; `from_bytes` passes `b.length + 1`, which
  that bound shows can never be exhausted.
-/

namespace RlSwarm

/-- ASCII string literal as its list of byte values (all claim literals are
ASCII, where code points and UTF-8 bytes coincide). -/
def ascii (s : String) : List Nat := s.data.map Char.toNat

/-! ## Byte-level primitives

These model the `int.to_bytes` / `int.from_bytes` calls of `game_tree.py`. -/

/-- Big-endian unsigned encoding on exactly `w` bytes, the meaning of
`n.to_bytes(length=w, byteorder="big", signed=False)` (reduced mod `256 ^ w`;
Python raises `OverflowError` instead of wrapping, and every call site below
is in range). -/
def bytesBE : Nat → Nat → List Nat
  | 0, _ => []
  | w + 1, n => bytesBE w (n / 256) ++ [n % 256]

/-- Big-endian unsigned decoding, the meaning of
`int.from_bytes(bs, byteorder="big", signed=False)`. -/
def natFromBytes (bs : List Nat) : Nat :=
  bs.foldl (fun a c => a * 256 + c) 0

/-- Python slice `b[i:i+n]`: truncates silently when fewer than `n` bytes
remain. -/
def slice (b : List Nat) (i n : Nat) : List Nat :=
  (b.drop i).take n

/-- Signed big-endian encoding on `w` bytes:
`v.to_bytes(length=w, byteorder="big", signed=True)` (two's complement). -/
def intToBytesSigned (v : Int) (w : Nat) : List Nat :=
  bytesBE w (v % ((256 : Int) ^ w)).toNat

/-- Signed big-endian decoding:
`int.from_bytes(bs, byteorder="big", signed=True)` (two's complement on
`bs.length` bytes). -/
def intFromBytesSigned (bs : List Nat) : Int :=
  let n := natFromBytes bs
  if 2 * n < 256 ^ bs.length then (n : Int) else (n : Int) - (256 : Int) ^ bs.length

@[simp] theorem length_bytesBE (w n : Nat) : (bytesBE w n).length = w := by
  induction w generalizing n with
  | zero => rfl
  | succ w ih => simp [bytesBE, ih]

theorem foldl_natFromBytes (bs : List Nat) (a : Nat) :
    bs.foldl (fun x c => x * 256 + c) a = a * 256 ^ bs.length + natFromBytes bs := by
  induction bs generalizing a with
  | nil => simp [natFromBytes]
  | cons c t ih =>
      simp only [List.foldl_cons, List.length_cons, natFromBytes, Nat.zero_mul, Nat.zero_add]
      rw [ih (a * 256 + c), ih c]
      ring

theorem natFromBytes_append (xs ys : List Nat) :
    natFromBytes (xs ++ ys) = natFromBytes xs * 256 ^ ys.length + natFromBytes ys := by
  unfold natFromBytes
  rw [List.foldl_append, foldl_natFromBytes]
  rfl

@[simp] theorem natFromBytes_nil : natFromBytes [] = 0 := rfl

@[simp] theorem natFromBytes_bytesBE (w n : Nat) :
    natFromBytes (bytesBE w n) = n % 256 ^ w := by
  induction w generalizing n with
  | zero => simp [bytesBE, natFromBytes, Nat.mod_one]
  | succ w ih =>
      rw [bytesBE, natFromBytes_append, ih]
      have h256 : (0:Nat) < 256 := by norm_num
      have : 256 ^ (w + 1) = 256 * 256 ^ w := by ring
      rw [this, Nat.mod_mul]
      have : natFromBytes [n % 256] = n % 256 := by simp [natFromBytes]
      rw [this]
      simp only [List.length_singleton, pow_one]
      ring

theorem natFromBytes_bytesBE_of_lt {w n : Nat} (h : n < 256 ^ w) :
    natFromBytes (bytesBE w n) = n := by
  rw [natFromBytes_bytesBE, Nat.mod_eq_of_lt h]

/-- Signed round trip: at any width whose two's-complement range contains `v`,
decoding inverts encoding. -/
theorem intFromBytesSigned_intToBytesSigned (v : Int) (w : Nat)
    (h : 2 * v.natAbs < 256 ^ w) :
    intFromBytesSigned (intToBytesSigned v w) = v := by
  have hMpos : (0 : Int) < (256 : Int) ^ w := by positivity
  have hcast : ((256 : Nat) ^ w : Int) = (256 : Int) ^ w := by push_cast; ring
  rcases le_or_lt 0 v with hv | hv
  · -- nonnegative: v % 256^w = v
    have hvlt : v < (256 : Int) ^ w := by
      have : (v.natAbs : Int) = v := Int.natAbs_of_nonneg hv
      have h2 : (2 * v.natAbs : Int) < ((256 : Nat) ^ w : Int) := by exact_mod_cast h
      omega
    have hmod : v % ((256 : Int) ^ w) = v := Int.emod_eq_of_lt hv hvlt
    have htn : ((v % ((256 : Int) ^ w)).toNat : Int) = v := by rw [hmod]; exact Int.toNat_of_nonneg hv
    have hlt : (v % ((256 : Int) ^ w)).toNat < 256 ^ w := by omega
    unfold intFromBytesSigned intToBytesSigned
    simp only [length_bytesBE, natFromBytes_bytesBE_of_lt hlt]
    have hbranch : 2 * (v % ((256 : Int) ^ w)).toNat < 256 ^ w := by
      have : (v.natAbs : Int) = v := Int.natAbs_of_nonneg hv
      omega
    rw [if_pos hbranch]
    exact htn
  · -- negative: v % 256^w = v + 256^w
    have habs : (v.natAbs : Int) = -v := Int.ofNat_natAbs_of_nonpos (le_of_lt hv)
    have hrange : -((256 : Int) ^ w) < v := by
      have h2 : (2 * v.natAbs : Int) < ((256 : Nat) ^ w : Int) := by exact_mod_cast h
      omega
    have hmod : v % ((256 : Int) ^ w) = v + (256 : Int) ^ w := by
      have h1 : (v + (256 : Int) ^ w) % ((256 : Int) ^ w) = v % ((256 : Int) ^ w) := by
        have h2 : v + (256 : Int) ^ w = v + (256 : Int) ^ w * 1 := by ring
        rw [h2, Int.add_mul_emod_self_left]
      rw [← h1, Int.emod_eq_of_lt (by omega) (by omega)]
    have htn : ((v % ((256 : Int) ^ w)).toNat : Int) = v + (256 : Int) ^ w := by
      rw [hmod]; exact Int.toNat_of_nonneg (by omega)
    have hlt : (v % ((256 : Int) ^ w)).toNat < 256 ^ w := by
      have h2 : (2 * v.natAbs : Int) < ((256 : Nat) ^ w : Int) := by exact_mod_cast h
      omega
    unfold intFromBytesSigned intToBytesSigned
    simp only [length_bytesBE, natFromBytes_bytesBE_of_lt hlt]
    have hbranch : ¬ (2 * (v % ((256 : Int) ^ w)).toNat < 256 ^ w) := by
      have h2 : (2 * v.natAbs : Int) < ((256 : Nat) ^ w : Int) := by exact_mod_cast h
      intro hcon
      have : ((2 * (v % ((256 : Int) ^ w)).toNat : Nat) : Int) < ((256 ^ w : Nat) : Int) := by
        exact_mod_cast hcon
      omega
    rw [if_neg hbranch]
    omega

/-! ## The value domain of the wire codec

`game_tree.py` serializes the closed variant set
`{list, dict, str, int, float, bool, Payload, WorldState, None}`
(`_type_to_objtype`).  `Payload` and `WorldState` are the two dataclasses at
the top of the file; note that `Payload` subclasses `dict` while storing its
three fields as *attributes*, so a `Payload`'s own mapping storage is always
empty — this is observable (and load-bearing) in the gossip pipeline model
below. -/

inductive Value where
  | vlist (xs : List Value)
  | vdict (kvs : List (Value × Value))
  | vstr (s : List Nat)
  | vint (n : Int)
  | vfloat (bits : Nat)
  | vbool (b : Bool)
  | vpayload (world_state actions metadata : Value)
  | vworld (environment_states opponent_states personal_states : Value)
  | vnone

mutual

/-- Structural equality on values (Python `==` restricted to the shapes the
claims exercise; Python's cross-type numeric equalities such as `1 == True`
and its order-insensitive dict equality are not needed: every theorem below
compares values of identical shape and dict order). -/
def beqV : Value → Value → Bool
  | .vlist xs, .vlist ys => beqL xs ys
  | .vdict xs, .vdict ys => beqP xs ys
  | .vstr s, .vstr t => s == t
  | .vint a, .vint b => a == b
  | .vfloat a, .vfloat b => a == b
  | .vbool a, .vbool b => a == b
  | .vpayload w1 a1 m1, .vpayload w2 a2 m2 => beqV w1 w2 && beqV a1 a2 && beqV m1 m2
  | .vworld e1 o1 p1, .vworld e2 o2 p2 => beqV e1 e2 && beqV o1 o2 && beqV p1 p2
  | .vnone, .vnone => true
  | _, _ => false

def beqL : List Value → List Value → Bool
  | [], [] => true
  | a :: as, b :: bs => beqV a b && beqL as bs
  | _, _ => false

def beqP : List (Value × Value) → List (Value × Value) → Bool
  | [], [] => true
  | (k1, v1) :: as, (k2, v2) :: bs => beqV k1 k2 && beqV v1 v2 && beqP as bs
  | _, _ => false

end

/-! ## CPython `sys.getsizeof` on `int`

`int_to_bytes` in `game_tree.py` uses `sys.getsizeof(obj)` as the byte width
of the serialized integer.  On CPython 3.12, 64-bit, that is
`24 + 4 * ndigits` where `ndigits ≥ 1` is the number of 30-bit limbs of the
absolute value (`sys.getsizeof(0) = 28`, `sys.getsizeof(2 ** 30) = 32`). -/

/-- Limb-counting loop: divide by `2 ^ 30` until below one limb.  The `fuel`
argument (instantiated with `n` itself, an overapproximation of the limb
count) only forces structural termination. -/
def pyNumDigitsAux : Nat → Nat → Nat
  | _, 0 => 1
  | n, fuel + 1 => if n < 2 ^ 30 then 1 else 1 + pyNumDigitsAux (n / 2 ^ 30) fuel

/-- Number of 30-bit limbs CPython uses for the magnitude `n` (at least 1). -/
def pyNumDigits (n : Nat) : Nat := pyNumDigitsAux n n

/-- CPython 3.12 (64-bit) `sys.getsizeof` of an `int`. -/
def pyGetSizeOf (v : Int) : Nat := 24 + 4 * pyNumDigits v.natAbs

theorem lt_two_pow_numDigitsAux (fuel : Nat) :
    ∀ n, n ≤ fuel → n < 2 ^ (30 * pyNumDigitsAux n fuel) := by
  induction fuel with
  | zero => intro n hn; interval_cases n; simp [pyNumDigitsAux]
  | succ fuel ih =>
      intro n hn
      rw [pyNumDigitsAux]
      split
      · next h => simpa using h
      · next h =>
        have hd : n / 2 ^ 30 < n := Nat.div_lt_self (by omega) (by norm_num)
        have h1 := ih (n / 2 ^ 30) (by omega)
        have h2 : n < 2 ^ 30 * (n / 2 ^ 30) + 2 ^ 30 := by
          have := Nat.mod_lt n (y := 2 ^ 30) (by norm_num)
          omega
        have h3 : 2 ^ 30 * (n / 2 ^ 30) + 2 ^ 30 ≤
            2 ^ 30 * 2 ^ (30 * pyNumDigitsAux (n / 2 ^ 30) fuel) := by
          have h4 : n / 2 ^ 30 + 1 ≤ 2 ^ (30 * pyNumDigitsAux (n / 2 ^ 30) fuel) := h1
          calc 2 ^ 30 * (n / 2 ^ 30) + 2 ^ 30 = 2 ^ 30 * (n / 2 ^ 30 + 1) := by ring
          _ ≤ 2 ^ 30 * 2 ^ (30 * pyNumDigitsAux (n / 2 ^ 30) fuel) := Nat.mul_le_mul_left _ h4
        have h5 : (2 : Nat) ^ 30 * 2 ^ (30 * pyNumDigitsAux (n / 2 ^ 30) fuel) =
            2 ^ (30 * (1 + pyNumDigitsAux (n / 2 ^ 30) fuel)) := by
          rw [← pow_add]; ring_nf
        omega

theorem lt_two_pow_numDigits (n : Nat) : n < 2 ^ (30 * pyNumDigits n) :=
  lt_two_pow_numDigitsAux n n le_rfl

/-- The `sys.getsizeof` width always has ample room for the two's-complement
representation of the value. -/
theorem two_mul_natAbs_lt_getsizeof (v : Int) :
    2 * v.natAbs < 256 ^ pyGetSizeOf v := by
  have h1 := lt_two_pow_numDigits v.natAbs
  set d := pyNumDigits v.natAbs with hd
  have h2 : 2 * v.natAbs < 2 ^ (30 * d + 1) := by
    rw [pow_succ]
    omega
  have h3 : (256 : Nat) ^ pyGetSizeOf v = 2 ^ (8 * (24 + 4 * d)) := by
    rw [pyGetSizeOf, ← hd]
    rw [show (256 : Nat) = 2 ^ 8 by norm_num, ← pow_mul]
  have h4 : 30 * d + 1 ≤ 8 * (24 + 4 * d) := by omega
  calc 2 * v.natAbs < 2 ^ (30 * d + 1) := h2
  _ ≤ 2 ^ (8 * (24 + 4 * d)) := Nat.pow_le_pow_right (by norm_num) h4
  _ = 256 ^ pyGetSizeOf v := h3.symm

/-! ## The encoder (`to_bytes` of `game_tree.py`)

Each case mirrors the corresponding `*_to_bytes` function; dispatch is
`_type_to_objtype` + `_SERIALIZATION_METHOD`.  Type tags: 1 = list,
2 = dict, 3 = str, 4 = int, 5 = float, 6 = bool, 7 = Payload,
8 = WorldState, 9 = None (`ObjType`).  Every tag and length field is an
8-byte unsigned big-endian integer. -/

mutual

/-- Embedding of `to_bytes`.  The boolean case writes the single byte
`b"1"` (49) or `b"0"` (48); the int case frames the value on
`sys.getsizeof(obj)` bytes; the float case writes the 8 IEEE-754 bytes of
`struct.pack('>d', obj)`. -/
def to_bytes : Value → List Nat
  | .vlist xs => bytesBE 8 1 ++ bytesBE 8 xs.length ++ to_bytes_list xs
  | .vdict kvs => bytesBE 8 2 ++ bytesBE 8 kvs.length ++ to_bytes_pairs kvs
  | .vstr s => bytesBE 8 3 ++ bytesBE 8 s.length ++ s
  | .vint v => bytesBE 8 4 ++ bytesBE 8 (pyGetSizeOf v) ++ intToBytesSigned v (pyGetSizeOf v)
  | .vfloat bits => bytesBE 8 5 ++ bytesBE 8 8 ++ bytesBE 8 bits
  | .vbool b => bytesBE 8 6 ++ [if b then 49 else 48]
  | .vpayload w a m => bytesBE 8 7 ++ (to_bytes w ++ (to_bytes a ++ to_bytes m))
  | .vworld e o p => bytesBE 8 8 ++ (to_bytes e ++ (to_bytes o ++ to_bytes p))
  | .vnone => bytesBE 8 9

/-- Concatenated encodings of the elements of a list (`list_to_bytes`). -/
def to_bytes_list : List Value → List Nat
  | [] => []
  | v :: t => to_bytes v ++ to_bytes_list t

/-- Concatenated key/value encodings of a dict (`dict_to_bytes`, which walks
`obj.items()` in insertion order). -/
def to_bytes_pairs : List (Value × Value) → List Nat
  | [] => []
  | (k, v) :: t => (to_bytes k ++ to_bytes v) ++ to_bytes_pairs t

end

/-! ## Wellformedness of values

`pyVal v` says `v` is the image of an actual CPython value: all lengths and
the `getsizeof` width fit the 8-byte length fields, string bytes are bytes,
float bit patterns fit 64 bits, and dict keys are pairwise distinct (a real
`dict` never holds duplicate keys).  `noBoolV v` says no `bool` occurs
in `v`. -/

/-- Key `k` does not occur among the keys of `t` (Python `k not in dict`). -/
def keyFresh (k : Value) (t : List (Value × Value)) : Bool :=
  t.all (fun kv => !(beqV k kv.1))

/-- Dict keys are pairwise distinct, each key fresh for its successors. -/
def keysNodup : List (Value × Value) → Bool
  | [] => true
  | (k, _) :: t => keyFresh k t && keysNodup t

mutual

def pyVal : Value → Bool
  | .vlist xs => decide (xs.length < 2 ^ 64) && pyValL xs
  | .vdict kvs => decide (kvs.length < 2 ^ 64) && keysNodup kvs && pyValP kvs
  | .vstr s => decide (s.length < 2 ^ 64) && s.all (fun c => decide (c < 256))
  | .vint v => decide (pyGetSizeOf v < 2 ^ 64)
  | .vfloat bits => decide (bits < 2 ^ 64)
  | .vbool _ => true
  | .vpayload w a m => pyVal w && pyVal a && pyVal m
  | .vworld e o p => pyVal e && pyVal o && pyVal p
  | .vnone => true

def pyValL : List Value → Bool
  | [] => true
  | v :: t => pyVal v && pyValL t

def pyValP : List (Value × Value) → Bool
  | [] => true
  | (k, v) :: t => pyVal k && pyVal v && pyValP t

end

mutual

def noBoolV : Value → Bool
  | .vlist xs => noBoolL xs
  | .vdict kvs => noBoolP kvs
  | .vbool _ => false
  | .vpayload w a m => noBoolV w && noBoolV a && noBoolV m
  | .vworld e o p => noBoolV e && noBoolV o && noBoolV p
  | _ => true

def noBoolL : List Value → Bool
  | [] => true
  | v :: t => noBoolV v && noBoolL t

def noBoolP : List (Value × Value) → Bool
  | [] => true
  | (k, v) :: t => noBoolV k && noBoolV v && noBoolP t

end

/-! ## Nesting depth bound used as decoder fuel -/

mutual

/-- Number of `Value` nodes (an upper bound on the decoder's recursion
depth). -/
def numNodes : Value → Nat
  | .vlist xs => 1 + numNodesL xs
  | .vdict kvs => 1 + numNodesP kvs
  | .vpayload w a m => 1 + numNodes w + numNodes a + numNodes m
  | .vworld e o p => 1 + numNodes e + numNodes o + numNodes p
  | _ => 1

def numNodesL : List Value → Nat
  | [] => 0
  | v :: t => numNodes v + numNodesL t

def numNodesP : List (Value × Value) → Nat
  | [] => 0
  | (k, v) :: t => numNodes k + numNodes v + numNodesP t

end

/-! ## The decoder (`from_bytes` of `game_tree.py`) -/

/-- Failure modes of the decoder.  `unknownTag` is the `RuntimeError` raised
by `serializer_from_bytes`; `indexError` is `b[i]` past the end in
`boolean_from_bytes`; `structError` is `struct.unpack('>d', buf)` on a
buffer that is not exactly 8 bytes.  `outOfFuel` is an artifact of the
embedding's termination fuel and is unreachable from `from_bytes`. -/
inductive DecodeErr where
  | unknownTag (tag : Nat)
  | indexError
  | structError
  | outOfFuel
  deriving DecidableEq

/-- Meaning of the comparison `b[i] == b"0"` in `boolean_from_bytes`: in
Python 3 `b[i]` is an `int` and `b"0"` is a `bytes` object, so the equality
is False for every byte value — the decoder can never produce `True`. -/
def pyIntEqBytesLit (_byte : Nat) : Bool := false

/-- Python `out[key] = value` on the insertion-ordered dict being built by
`dict_from_bytes`: replace the value in place if an equal key exists,
otherwise append. -/
def pyDictInsert : List (Value × Value) → Value → Value → List (Value × Value)
  | [], k, v => [(k, v)]
  | (k0, v0) :: t, k, v =>
      if beqV k0 k then (k0, v) :: t else (k0, v0) :: pyDictInsert t k v

/-- The element loop of `list_from_bytes` (`n_items` sequential child
decodes); `f` is the child decoder `_from_bytes`. -/
def from_list_core (f : List Nat → Nat → Except DecodeErr (Value × Nat)) :
    List Nat → Nat → Nat → Except DecodeErr (List Value × Nat)
  | _, i, 0 => .ok ([], i)
  | b, i, k + 1 => do
      let r ← f b i
      let t ← from_list_core f b r.2 k
      return (r.1 :: t.1, t.2)

/-- The pair loop of `dict_from_bytes` (`out[key] = value` insertions in
decode order); `f` is the child decoder `_from_bytes`. -/
def from_dict_core (f : List Nat → Nat → Except DecodeErr (Value × Nat)) :
    List Nat → Nat → Nat → List (Value × Value) →
    Except DecodeErr (List (Value × Value) × Nat)
  | _, i, 0, acc => .ok (acc, i)
  | b, i, k + 1, acc => do
      let rk ← f b i
      let rv ← f b rk.2
      from_dict_core f b rv.2 k (pyDictInsert acc rk.1 rv.1)

/-- One level of `_from_bytes(b, i)`: read the 8-byte type tag at `i`,
dispatch through `_DESERIALIZATION_METHOD` (an unrecognized tag raises in
`serializer_from_bytes`), and run the per-type reader at `i + 8` with `f`
as the decoder for nested values.  Slices truncate silently, exactly as
Python slicing does, and the cursor advances by the *claimed* length even
when fewer bytes remained. -/
def from_bytes_core (f : List Nat → Nat → Except DecodeErr (Value × Nat))
    (b : List Nat) (i : Nat) : Except DecodeErr (Value × Nat) :=
  let tag := natFromBytes (slice b i 8)
  let j := i + 8
  if tag = 1 then
    -- list_from_bytes
    let n := natFromBytes (slice b j 8)
    (from_list_core f b (j + 8) n).map (fun r => (Value.vlist r.1, r.2))
  else if tag = 2 then
    -- dict_from_bytes
    let n := natFromBytes (slice b j 8)
    (from_dict_core f b (j + 8) n []).map (fun r => (Value.vdict r.1, r.2))
  else if tag = 3 then
    -- string_from_bytes (UTF-8 validation not modelled)
    let n := natFromBytes (slice b j 8)
    .ok (Value.vstr (slice b (j + 8) n), j + 8 + n)
  else if tag = 4 then
    -- int_from_bytes: a truncated slice silently decodes to a smaller int
    let n := natFromBytes (slice b j 8)
    .ok (Value.vint (intFromBytesSigned (slice b (j + 8) n)), j + 8 + n)
  else if tag = 5 then
    -- float_from_bytes: struct.unpack('>d', buf) wants exactly 8 bytes
    let n := natFromBytes (slice b j 8)
    let s := slice b (j + 8) n
    if s.length = 8 then .ok (Value.vfloat (natFromBytes s), j + 8 + n)
    else .error .structError
  else if tag = 6 then
    -- boolean_from_bytes
    if h : j < b.length then
      .ok (Value.vbool (pyIntEqBytesLit (b.get ⟨j, h⟩)), j + 1)
    else .error .indexError
  else if tag = 7 then
    -- payload_from_bytes
    do
      let r1 ← f b j
      let r2 ← f b r1.2
      let r3 ← f b r2.2
      return (Value.vpayload r1.1 r2.1 r3.1, r3.2)
  else if tag = 8 then
    -- world_state_from_bytes
    do
      let r1 ← f b j
      let r2 ← f b r1.2
      let r3 ← f b r2.2
      return (Value.vworld r1.1 r2.1 r3.1, r3.2)
  else if tag = 9 then
    -- none_from_bytes
    .ok (Value.vnone, j)
  else
    .error (.unknownTag tag)

/-- Fuel-indexed `_from_bytes`: `fuel` bounds the nesting depth and only
forces termination of the embedding. -/
def from_bytes_at : Nat → List Nat → Nat → Except DecodeErr (Value × Nat)
  | 0 => fun _ _ => .error .outOfFuel
  | fuel + 1 => from_bytes_core (from_bytes_at fuel)

/-- Embedding of `from_bytes(b) = _from_bytes(b, 0)[0]`.  The fuel
`b.length + 1` is never exhausted: fuel is decremented only when nesting
into a child value, every nesting level starts at least 8 bytes further
into `b`, and a call starting past the end of `b` reads tag 0 and fails
without recursing, so the nesting depth is at most `b.length / 8 + 1`. -/
def from_bytes (b : List Nat) : Except DecodeErr Value :=
  (from_bytes_at (b.length + 1) b 0).map Prod.fst

/-! ## Reading helpers for the decode-of-encode proof -/

theorem from_bytes_at_succ (fuel : Nat) (b : List Nat) (i : Nat) :
    from_bytes_at (fuel + 1) b i = from_bytes_core (from_bytes_at fuel) b i := rfl

theorem slice_take (pre rest : List Nat) (n : Nat) :
    slice (pre ++ rest) pre.length n = rest.take n := by
  unfold slice
  rw [List.drop_left]

theorem slice_exact (pre mid rest : List Nat) {n : Nat} (h : mid.length = n) :
    slice (pre ++ (mid ++ rest)) pre.length n = mid := by
  rw [slice_take, List.take_left' h]

/-- Reading back an in-range `w`-byte big-endian field. -/
theorem read_bytesBE (pre rest : List Nat) (w n : Nat) (h : n < 256 ^ w) :
    natFromBytes (slice (pre ++ (bytesBE w n ++ rest)) pre.length w) = n := by
  rw [slice_exact pre _ rest (length_bytesBE w n), natFromBytes_bytesBE_of_lt h]

/-! ## Size bounds: every encoded node occupies at least 8 bytes -/

mutual

theorem mul8_numNodes_le : ∀ v : Value, 8 * numNodes v ≤ (to_bytes v).length
  | .vlist xs => by
      have h := mul8_numNodesL_le xs
      simp only [to_bytes, numNodes, List.length_append, length_bytesBE]
      omega
  | .vdict kvs => by
      have h := mul8_numNodesP_le kvs
      simp only [to_bytes, numNodes, List.length_append, length_bytesBE]
      omega
  | .vstr s => by
      simp only [to_bytes, numNodes, List.length_append, length_bytesBE]
      omega
  | .vint v => by
      simp only [to_bytes, numNodes, intToBytesSigned, List.length_append, length_bytesBE]
      omega
  | .vfloat bits => by
      simp only [to_bytes, numNodes, List.length_append, length_bytesBE]
      omega
  | .vbool b => by
      simp only [to_bytes, numNodes, List.length_append, length_bytesBE,
        List.length_singleton]
      omega
  | .vpayload w a m => by
      have h1 := mul8_numNodes_le w
      have h2 := mul8_numNodes_le a
      have h3 := mul8_numNodes_le m
      simp only [to_bytes, numNodes, List.length_append, length_bytesBE]
      omega
  | .vworld e o p => by
      have h1 := mul8_numNodes_le e
      have h2 := mul8_numNodes_le o
      have h3 := mul8_numNodes_le p
      simp only [to_bytes, numNodes, List.length_append, length_bytesBE]
      omega
  | .vnone => by
      simp only [to_bytes, numNodes, length_bytesBE]
      omega

theorem mul8_numNodesL_le : ∀ xs : List Value, 8 * numNodesL xs ≤ (to_bytes_list xs).length
  | [] => by simp [to_bytes_list, numNodesL]
  | v :: t => by
      have h1 := mul8_numNodes_le v
      have h2 := mul8_numNodesL_le t
      simp only [to_bytes_list, numNodesL, List.length_append]
      omega

theorem mul8_numNodesP_le : ∀ kvs : List (Value × Value),
    8 * numNodesP kvs ≤ (to_bytes_pairs kvs).length
  | [] => by simp [to_bytes_pairs, numNodesP]
  | (k, v) :: t => by
      have h1 := mul8_numNodes_le k
      have h2 := mul8_numNodes_le v
      have h3 := mul8_numNodesP_le t
      simp only [to_bytes_pairs, numNodesP, List.length_append]
      omega

end

theorem numNodes_pos (v : Value) : 1 ≤ numNodes v := by
  cases v <;> simp only [numNodes] <;> omega

/-! ## Freshness facts about dict insertion -/

/-- No key of `acc` equals `k` (in the orientation `pyDictInsert` tests). -/
def notKeyOf (k : Value) (acc : List (Value × Value)) : Bool :=
  acc.all (fun kv0 => !(beqV kv0.1 k))

/-- Every key of `kvs` is new relative to the accumulator `acc`. -/
def allKeysNew (kvs acc : List (Value × Value)) : Bool :=
  kvs.all (fun kv => notKeyOf kv.1 acc)

theorem pyDictInsert_append_of_fresh (acc : List (Value × Value)) (k v : Value)
    (h : notKeyOf k acc = true) : pyDictInsert acc k v = acc ++ [(k, v)] := by
  induction acc with
  | nil => rfl
  | cons kv0 t ih =>
      obtain ⟨k0, v0⟩ := kv0
      simp only [notKeyOf, List.all_cons, Bool.and_eq_true, Bool.not_eq_true'] at h
      simp only [pyDictInsert, h.1, Bool.false_eq_true, if_false, List.cons_append,
        List.cons.injEq, true_and]
      exact ih (by simp only [notKeyOf]; exact h.2)

theorem allKeysNew_nil (kvs : List (Value × Value)) : allKeysNew kvs [] = true := by
  simp [allKeysNew, notKeyOf]

theorem allKeysNew_extend (t acc : List (Value × Value)) (k v : Value)
    (h1 : allKeysNew t acc = true) (h2 : keyFresh k t = true) :
    allKeysNew t (acc ++ [(k, v)]) = true := by
  simp only [allKeysNew, notKeyOf, keyFresh, List.all_eq_true, List.all_append,
    List.all_cons, List.all_nil, Bool.and_eq_true, Bool.and_true] at *
  intro kv hkv
  exact ⟨fun x hx => h1 kv hkv x hx, h2 kv hkv⟩

/-! ## Decoding an encoded wellformed value

The central lemma: at any position of any buffer, decoding the encoding of a
wellformed value succeeds, consumes exactly the encoding, and returns the
value itself whenever no boolean occurs in it (booleans decode to `False`,
see `pyIntEqBytesLit`). -/

mutual

theorem from_core_spec : ∀ (v : Value) (g : Nat) (pre post : List Nat),
    pyVal v = true → numNodes v ≤ g + 1 →
    ∃ w, from_bytes_at (g + 1) (pre ++ to_bytes v ++ post) pre.length
        = .ok (w, pre.length + (to_bytes v).length)
      ∧ (noBoolV v = true → w = v)
  | .vnone, g, pre, post => by
      intro _ _
      rw [from_bytes_at_succ]
      simp only [to_bytes]
      simp only [List.append_assoc]
      have htag := read_bytesBE pre post 8 9 (by norm_num)
      simp only [from_bytes_core]
      rw [htag]
      norm_num
  | .vbool b, g, pre, post => by
      intro _ _
      rw [from_bytes_at_succ]
      simp only [to_bytes, List.append_assoc, List.singleton_append]
      have htag := read_bytesBE pre ((if b then 49 else 48) :: post) 8 6 (by norm_num)
      simp only [from_bytes_core]
      rw [htag]
      norm_num
      intro h
      simp [noBoolV] at h
  | .vstr s, g, pre, post => by
      intro hval _
      simp only [pyVal, Bool.and_eq_true, decide_eq_true_eq] at hval
      rw [from_bytes_at_succ]
      simp only [to_bytes, List.append_assoc]
      have htag := read_bytesBE pre (bytesBE 8 s.length ++ (s ++ post)) 8 3 (by norm_num)
      have hcnt : natFromBytes (slice (pre ++ (bytesBE 8 3 ++ (bytesBE 8 s.length ++ (s ++ post))))
          (pre.length + 8) 8) = s.length := by
        have h1 : pre ++ (bytesBE 8 3 ++ (bytesBE 8 s.length ++ (s ++ post)))
            = (pre ++ bytesBE 8 3) ++ (bytesBE 8 s.length ++ (s ++ post)) := by
          simp [List.append_assoc]
        have h2 : pre.length + 8 = (pre ++ bytesBE 8 3).length := by simp
        rw [h1, h2, read_bytesBE _ _ 8 s.length hval.1]
      have hcontent : slice (pre ++ (bytesBE 8 3 ++ (bytesBE 8 s.length ++ (s ++ post))))
          (pre.length + 8 + 8) s.length = s := by
        have h1 : pre ++ (bytesBE 8 3 ++ (bytesBE 8 s.length ++ (s ++ post)))
            = ((pre ++ bytesBE 8 3) ++ bytesBE 8 s.length) ++ (s ++ post) := by
          simp [List.append_assoc]
        have h2 : pre.length + 8 + 8 = ((pre ++ bytesBE 8 3) ++ bytesBE 8 s.length).length := by
          simp
        rw [h1, h2, slice_exact _ _ _ rfl]
      simp only [from_bytes_core]
      rw [htag]
      norm_num
      rw [hcnt, hcontent]
      exact ⟨.vstr s, ⟨rfl, by omega⟩, fun _ => rfl⟩
  | .vint v, g, pre, post => by
      intro hval _
      simp only [pyVal, decide_eq_true_eq] at hval
      rw [from_bytes_at_succ]
      simp only [to_bytes, List.append_assoc]
      have htag := read_bytesBE pre
        (bytesBE 8 (pyGetSizeOf v) ++ (intToBytesSigned v (pyGetSizeOf v) ++ post)) 8 4
        (by norm_num)
      have hcnt : natFromBytes (slice
          (pre ++ (bytesBE 8 4 ++ (bytesBE 8 (pyGetSizeOf v) ++ (intToBytesSigned v (pyGetSizeOf v) ++ post))))
          (pre.length + 8) 8) = pyGetSizeOf v := by
        have h1 : pre ++ (bytesBE 8 4 ++ (bytesBE 8 (pyGetSizeOf v) ++ (intToBytesSigned v (pyGetSizeOf v) ++ post)))
            = (pre ++ bytesBE 8 4) ++ (bytesBE 8 (pyGetSizeOf v) ++ (intToBytesSigned v (pyGetSizeOf v) ++ post)) := by
          simp [List.append_assoc]
        have h2 : pre.length + 8 = (pre ++ bytesBE 8 4).length := by simp
        rw [h1, h2, read_bytesBE _ _ 8 (pyGetSizeOf v) hval]
      have hlenc : (intToBytesSigned v (pyGetSizeOf v)).length = pyGetSizeOf v := by
        simp [intToBytesSigned]
      have hcontent : slice
          (pre ++ (bytesBE 8 4 ++ (bytesBE 8 (pyGetSizeOf v) ++ (intToBytesSigned v (pyGetSizeOf v) ++ post))))
          (pre.length + 8 + 8) (pyGetSizeOf v) = intToBytesSigned v (pyGetSizeOf v) := by
        have h1 : pre ++ (bytesBE 8 4 ++ (bytesBE 8 (pyGetSizeOf v) ++ (intToBytesSigned v (pyGetSizeOf v) ++ post)))
            = ((pre ++ bytesBE 8 4) ++ bytesBE 8 (pyGetSizeOf v)) ++ (intToBytesSigned v (pyGetSizeOf v) ++ post) := by
          simp [List.append_assoc]
        have h2 : pre.length + 8 + 8 = ((pre ++ bytesBE 8 4) ++ bytesBE 8 (pyGetSizeOf v)).length := by
          simp
        rw [h1, h2, slice_exact _ _ _ hlenc]
      have hdec := intFromBytesSigned_intToBytesSigned v (pyGetSizeOf v)
        (two_mul_natAbs_lt_getsizeof v)
      simp only [from_bytes_core]
      rw [htag]
      norm_num
      rw [hcnt, hcontent, hdec]
      exact ⟨.vint v, ⟨rfl, by rw [hlenc]; omega⟩, fun _ => rfl⟩
  | .vfloat bits, g, pre, post => by
      intro hval _
      simp only [pyVal, decide_eq_true_eq] at hval
      have hval' : bits < 256 ^ 8 := by norm_num at hval ⊢; omega
      rw [from_bytes_at_succ]
      simp only [to_bytes, List.append_assoc]
      have htag := read_bytesBE pre (bytesBE 8 8 ++ (bytesBE 8 bits ++ post)) 8 5 (by norm_num)
      have hcnt : natFromBytes (slice (pre ++ (bytesBE 8 5 ++ (bytesBE 8 8 ++ (bytesBE 8 bits ++ post))))
          (pre.length + 8) 8) = 8 := by
        have h1 : pre ++ (bytesBE 8 5 ++ (bytesBE 8 8 ++ (bytesBE 8 bits ++ post)))
            = (pre ++ bytesBE 8 5) ++ (bytesBE 8 8 ++ (bytesBE 8 bits ++ post)) := by
          simp [List.append_assoc]
        have h2 : pre.length + 8 = (pre ++ bytesBE 8 5).length := by simp
        rw [h1, h2, read_bytesBE _ _ 8 8 (by norm_num)]
      have hcontent : slice (pre ++ (bytesBE 8 5 ++ (bytesBE 8 8 ++ (bytesBE 8 bits ++ post))))
          (pre.length + 8 + 8) 8 = bytesBE 8 bits := by
        have h1 : pre ++ (bytesBE 8 5 ++ (bytesBE 8 8 ++ (bytesBE 8 bits ++ post)))
            = ((pre ++ bytesBE 8 5) ++ bytesBE 8 8) ++ (bytesBE 8 bits ++ post) := by
          simp [List.append_assoc]
        have h2 : pre.length + 8 + 8 = ((pre ++ bytesBE 8 5) ++ bytesBE 8 8).length := by
          simp
        rw [h1, h2, slice_exact _ _ _ (length_bytesBE 8 bits)]
      simp only [from_bytes_core]
      rw [htag]
      norm_num
      rw [hcnt, hcontent]
      simp only [length_bytesBE, natFromBytes_bytesBE_of_lt hval', if_true]
      exact ⟨.vfloat bits, by norm_num, fun _ => rfl⟩
  | .vlist xs, g, pre, post => by
      intro hval hfuel
      simp only [pyVal, Bool.and_eq_true, decide_eq_true_eq] at hval
      obtain ⟨hlen, hvalL⟩ := hval
      have hfg : numNodesL xs ≤ g := by simp only [numNodes] at hfuel; omega
      rw [from_bytes_at_succ]
      simp only [to_bytes, List.append_assoc]
      have htag := read_bytesBE pre (bytesBE 8 xs.length ++ (to_bytes_list xs ++ post)) 8 1
        (by norm_num)
      have hcnt : natFromBytes (slice (pre ++ (bytesBE 8 1 ++ (bytesBE 8 xs.length ++ (to_bytes_list xs ++ post))))
          (pre.length + 8) 8) = xs.length := by
        have h1 : pre ++ (bytesBE 8 1 ++ (bytesBE 8 xs.length ++ (to_bytes_list xs ++ post)))
            = (pre ++ bytesBE 8 1) ++ (bytesBE 8 xs.length ++ (to_bytes_list xs ++ post)) := by
          simp [List.append_assoc]
        have h2 : pre.length + 8 = (pre ++ bytesBE 8 1).length := by simp
        rw [h1, h2, read_bytesBE _ _ 8 xs.length hlen]
      obtain ⟨ws, hws, hwsimp⟩ := from_list_spec xs g ((pre ++ bytesBE 8 1) ++ bytesBE 8 xs.length)
        post hvalL hfg
      have hbuf : pre ++ (bytesBE 8 1 ++ (bytesBE 8 xs.length ++ (to_bytes_list xs ++ post)))
          = ((pre ++ bytesBE 8 1) ++ bytesBE 8 xs.length) ++ (to_bytes_list xs ++ post) := by
        simp [List.append_assoc]
      have hpos : pre.length + 8 + 8 = ((pre ++ bytesBE 8 1) ++ bytesBE 8 xs.length).length := by
        simp
      simp only [from_bytes_core, htag, hcnt, length_bytesBE]
      norm_num
      rw [hbuf, hpos, hws]
      simp only [Except.map]
      refine ⟨.vlist ws, ?_, ?_⟩
      · simp
        omega
      · intro hnb
        simp only [noBoolV] at hnb
        rw [hwsimp hnb]
  | .vdict kvs, g, pre, post => by
      intro hval hfuel
      simp only [pyVal, Bool.and_eq_true, decide_eq_true_eq] at hval
      obtain ⟨⟨hlen, hnodup⟩, hvalP⟩ := hval
      have hfg : numNodesP kvs ≤ g := by simp only [numNodes] at hfuel; omega
      rw [from_bytes_at_succ]
      simp only [to_bytes, List.append_assoc]
      have htag := read_bytesBE pre (bytesBE 8 kvs.length ++ (to_bytes_pairs kvs ++ post)) 8 2
        (by norm_num)
      have hcnt : natFromBytes (slice (pre ++ (bytesBE 8 2 ++ (bytesBE 8 kvs.length ++ (to_bytes_pairs kvs ++ post))))
          (pre.length + 8) 8) = kvs.length := by
        have h1 : pre ++ (bytesBE 8 2 ++ (bytesBE 8 kvs.length ++ (to_bytes_pairs kvs ++ post)))
            = (pre ++ bytesBE 8 2) ++ (bytesBE 8 kvs.length ++ (to_bytes_pairs kvs ++ post)) := by
          simp [List.append_assoc]
        have h2 : pre.length + 8 = (pre ++ bytesBE 8 2).length := by simp
        rw [h1, h2, read_bytesBE _ _ 8 kvs.length hlen]
      obtain ⟨res, hres, hresimp⟩ := from_dict_spec kvs g ((pre ++ bytesBE 8 2) ++ bytesBE 8 kvs.length)
        post [] hvalP hfg
      have hbuf : pre ++ (bytesBE 8 2 ++ (bytesBE 8 kvs.length ++ (to_bytes_pairs kvs ++ post)))
          = ((pre ++ bytesBE 8 2) ++ bytesBE 8 kvs.length) ++ (to_bytes_pairs kvs ++ post) := by
        simp [List.append_assoc]
      have hpos : pre.length + 8 + 8 = ((pre ++ bytesBE 8 2) ++ bytesBE 8 kvs.length).length := by
        simp
      simp only [from_bytes_core, htag, hcnt, length_bytesBE]
      norm_num
      rw [hbuf, hpos, hres]
      simp only [Except.map]
      refine ⟨.vdict res, ?_, ?_⟩
      · simp
        omega
      · intro hnb
        simp only [noBoolV] at hnb
        rw [hresimp hnb hnodup (allKeysNew_nil kvs)]
        simp
  | .vpayload wv av mv, g, pre, post => by
      intro hval hfuel
      simp only [pyVal, Bool.and_eq_true] at hval
      obtain ⟨⟨hw, ha⟩, hm⟩ := hval
      have hg1 : numNodes wv ≤ g ∧ numNodes av ≤ g ∧ numNodes mv ≤ g := by
        simp only [numNodes] at hfuel
        have := numNodes_pos wv
        have := numNodes_pos av
        have := numNodes_pos mv
        omega
      obtain ⟨g', rfl⟩ : ∃ g', g = g' + 1 := ⟨g - 1, by have := numNodes_pos wv; omega⟩
      rw [from_bytes_at_succ]
      simp only [to_bytes, List.append_assoc]
      have htag := read_bytesBE pre (to_bytes wv ++ (to_bytes av ++ (to_bytes mv ++ post))) 8 7
        (by norm_num)
      obtain ⟨w1, hw1, hw1imp⟩ := from_core_spec wv g' (pre ++ bytesBE 8 7)
        (to_bytes av ++ (to_bytes mv ++ post)) hw (by omega)
      obtain ⟨w2, hw2, hw2imp⟩ := from_core_spec av g' ((pre ++ bytesBE 8 7) ++ to_bytes wv)
        (to_bytes mv ++ post) ha (by omega)
      obtain ⟨w3, hw3, hw3imp⟩ := from_core_spec mv g'
        (((pre ++ bytesBE 8 7) ++ to_bytes wv) ++ to_bytes av) post hm (by omega)
      simp only [from_bytes_core]
      rw [htag]
      norm_num
      simp only [List.append_assoc, List.length_append, length_bytesBE, Nat.add_assoc]
        at hw1 hw2 hw3 ⊢
      rw [hw1]
      simp only [bind, Except.bind]
      rw [hw2]
      simp only [bind, Except.bind]
      rw [hw3]
      simp only [Functor.map, Except.map]
      refine ⟨.vpayload w1 w2 w3, rfl, ?_⟩
      intro hnb
      simp only [noBoolV, Bool.and_eq_true] at hnb
      rw [hw1imp hnb.1.1, hw2imp hnb.1.2, hw3imp hnb.2]
  | .vworld ev ov pv, g, pre, post => by
      intro hval hfuel
      simp only [pyVal, Bool.and_eq_true] at hval
      obtain ⟨⟨he, ho⟩, hp⟩ := hval
      have hg1 : numNodes ev ≤ g ∧ numNodes ov ≤ g ∧ numNodes pv ≤ g := by
        simp only [numNodes] at hfuel
        have := numNodes_pos ev
        have := numNodes_pos ov
        have := numNodes_pos pv
        omega
      obtain ⟨g', rfl⟩ : ∃ g', g = g' + 1 := ⟨g - 1, by have := numNodes_pos ev; omega⟩
      rw [from_bytes_at_succ]
      simp only [to_bytes, List.append_assoc]
      have htag := read_bytesBE pre (to_bytes ev ++ (to_bytes ov ++ (to_bytes pv ++ post))) 8 8
        (by norm_num)
      obtain ⟨w1, hw1, hw1imp⟩ := from_core_spec ev g' (pre ++ bytesBE 8 8)
        (to_bytes ov ++ (to_bytes pv ++ post)) he (by omega)
      obtain ⟨w2, hw2, hw2imp⟩ := from_core_spec ov g' ((pre ++ bytesBE 8 8) ++ to_bytes ev)
        (to_bytes pv ++ post) ho (by omega)
      obtain ⟨w3, hw3, hw3imp⟩ := from_core_spec pv g'
        (((pre ++ bytesBE 8 8) ++ to_bytes ev) ++ to_bytes ov) post hp (by omega)
      simp only [from_bytes_core]
      rw [htag]
      norm_num
      simp only [List.append_assoc, List.length_append, length_bytesBE, Nat.add_assoc]
        at hw1 hw2 hw3 ⊢
      rw [hw1]
      simp only [bind, Except.bind]
      rw [hw2]
      simp only [bind, Except.bind]
      rw [hw3]
      simp only [Functor.map, Except.map]
      refine ⟨.vworld w1 w2 w3, rfl, ?_⟩
      intro hnb
      simp only [noBoolV, Bool.and_eq_true] at hnb
      rw [hw1imp hnb.1.1, hw2imp hnb.1.2, hw3imp hnb.2]

theorem from_list_spec : ∀ (xs : List Value) (g : Nat) (pre post : List Nat),
    pyValL xs = true → numNodesL xs ≤ g →
    ∃ ws, from_list_core (from_bytes_at g) (pre ++ (to_bytes_list xs ++ post)) pre.length xs.length
        = .ok (ws, pre.length + (to_bytes_list xs).length)
      ∧ (noBoolL xs = true → ws = xs)
  | [], g, pre, post => by
      intro _ _
      simp only [to_bytes_list, List.length_nil, from_list_core, List.nil_append,
        List.length_append]
      exact ⟨[], by simp, fun _ => rfl⟩
  | v :: t, g, pre, post => by
      intro hval hg
      simp only [pyValL, Bool.and_eq_true] at hval
      obtain ⟨hv, ht⟩ := hval
      simp only [numNodesL] at hg
      obtain ⟨g', rfl⟩ : ∃ g', g = g' + 1 := ⟨g - 1, by have := numNodes_pos v; omega⟩
      obtain ⟨w, hw, hwimp⟩ := from_core_spec v g' pre (to_bytes_list t ++ post) hv (by omega)
      obtain ⟨ws, hws, hwsimp⟩ := from_list_spec t (g' + 1) (pre ++ to_bytes v) post ht (by omega)
      simp only [to_bytes_list, List.length_cons, List.append_assoc, List.length_append,
        Nat.add_assoc]
      simp only [List.append_assoc, List.length_append, Nat.add_assoc] at hw hws
      rw [from_list_core]
      rw [hw]
      simp only [bind, Except.bind]
      rw [hws]
      simp only [pure, Except.pure]
      refine ⟨w :: ws, rfl, ?_⟩
      intro hnb
      simp only [noBoolL, Bool.and_eq_true] at hnb
      rw [hwimp hnb.1, hwsimp hnb.2]

theorem from_dict_spec : ∀ (kvs : List (Value × Value)) (g : Nat) (pre post : List Nat)
    (acc : List (Value × Value)),
    pyValP kvs = true → numNodesP kvs ≤ g →
    ∃ res, from_dict_core (from_bytes_at g) (pre ++ (to_bytes_pairs kvs ++ post)) pre.length
          kvs.length acc
        = .ok (res, pre.length + (to_bytes_pairs kvs).length)
      ∧ (noBoolP kvs = true → keysNodup kvs = true → allKeysNew kvs acc = true →
          res = acc ++ kvs)
  | [], g, pre, post, acc => by
      intro _ _
      simp only [to_bytes_pairs, List.length_nil, from_dict_core, List.nil_append,
        List.length_append]
      exact ⟨acc, by simp, fun _ _ _ => by simp⟩
  | (k, v) :: t, g, pre, post, acc => by
      intro hval hg
      simp only [pyValP, Bool.and_eq_true] at hval
      obtain ⟨⟨hk, hv⟩, ht⟩ := hval
      simp only [numNodesP] at hg
      obtain ⟨g', rfl⟩ : ∃ g', g = g' + 1 := ⟨g - 1, by have := numNodes_pos k; omega⟩
      obtain ⟨wk, hwk, hwkimp⟩ := from_core_spec k g' pre
        (to_bytes v ++ (to_bytes_pairs t ++ post)) hk (by omega)
      obtain ⟨wv, hwv, hwvimp⟩ := from_core_spec v g' (pre ++ to_bytes k)
        (to_bytes_pairs t ++ post) hv (by omega)
      obtain ⟨res, hres, hresimp⟩ := from_dict_spec t (g' + 1)
        ((pre ++ to_bytes k) ++ to_bytes v) post (pyDictInsert acc wk wv) ht (by omega)
      simp only [to_bytes_pairs, List.length_cons, List.append_assoc, List.length_append,
        Nat.add_assoc]
      simp only [List.append_assoc, List.length_append, Nat.add_assoc] at hwk hwv hres
      rw [from_dict_core]
      rw [hwk]
      simp only [bind, Except.bind]
      rw [hwv]
      simp only [bind, Except.bind]
      rw [hres]
      refine ⟨res, rfl, ?_⟩
      · intro hnb hnd hnew
        simp only [noBoolP, Bool.and_eq_true] at hnb
        simp only [keysNodup, Bool.and_eq_true] at hnd
        simp only [allKeysNew, List.all_cons, Bool.and_eq_true] at hnew
        rw [hwkimp hnb.1.1, hwvimp hnb.1.2] at hresimp
        have hins : pyDictInsert acc k v = acc ++ [(k, v)] :=
          pyDictInsert_append_of_fresh acc k v hnew.1
        rw [hins] at hresimp
        have := hresimp hnb.2 hnd.2 (allKeysNew_extend t acc k v (by
          simp only [allKeysNew]; exact hnew.2) hnd.1)
        rw [this]
        simp

end

/-- Top-level round trip of the codec on any wellformed value:
decoding always succeeds, and returns the value itself when no boolean
occurs in it. -/
theorem from_bytes_to_bytes (v : Value) (h : pyVal v = true) :
    ∃ w, from_bytes (to_bytes v) = .ok w ∧ (noBoolV v = true → w = v) := by
  obtain ⟨w, hw, himp⟩ := from_core_spec v (to_bytes v).length [] [] h
    (by have := mul8_numNodes_le v; omega)
  refine ⟨w, ?_, himp⟩
  unfold from_bytes
  simp only [List.nil_append, List.append_nil, List.length_nil, Nat.zero_add] at hw
  rw [hw]
  simp [Except.map]

end RlSwarm

namespace RlSwarm

/-! ## The gossip pipeline (`dht_pub.py`)

`GossipDHTPublisher._poll_once` runs with its external effects made
explicit: the coordinator call is an `Except` result, the DHT lookup is a
function from the round key to an optional record (`None` models an absent
record, which `if not round_data` treats as falsy), `random.choice` and
`random.shuffle` enter as the function parameters `pick` and `shuffle`,
`get_name_from_peer_id` as `nameOf`, and `datetime.now` as `nowTs`.
Logging is abstracted to the single flag `errorLogged` (set exactly when
the enclosing `except Exception` handler fires); `poll_id`, `last_polled`
and the Kinesis `GossipMessageData` repackaging in `_publish_gossip` carry
no information the claims touch. -/

/-- A Python exception inside the polling cycle; the handler
`except Exception` treats them all alike. -/
inductive PyErr where
  | decodeErr (e : DecodeErr)
  | attributeError
  | typeError
  | keyError
  | indexError

/-- One entry of the `round_gossip` list (the dict built at
`dht_pub.py:225-233`); `gid` is the md5 input (see `md5Hex`). -/
structure GossipDatum where
  gid : List Nat
  message : List Nat
  node : List Nat
  nodeId : List Nat
  dataset : Value

/-- Python `.items()` as called on a decoded value: a dict yields its
entries; a `Payload` *is* a dict subclass but its three fields live as
attributes, so its own mapping storage is always empty; anything else has
no `.items` and raises `AttributeError`. -/
def pyItems : Value → Except PyErr (List (Value × Value))
  | .vdict kvs => .ok kvs
  | .vpayload _ _ _ => .ok []
  | _ => .error .attributeError

/-- Python iteration as consumed by `all_payloads.extend(payload_list)`:
a list yields its elements, a str its one-character strings, a dict its
keys, a `Payload` its (empty) mapping storage; non-iterables raise. -/
def pyIterElems : Value → Except PyErr (List Value)
  | .vlist xs => .ok xs
  | .vstr s => .ok (s.map (fun c => .vstr [c]))
  | .vdict kvs => .ok (kvs.map Prod.fst)
  | .vpayload _ _ _ => .ok []
  | _ => .error .typeError

/-- Attribute access `payload.world_state`. -/
def attrWorldState : Value → Except PyErr Value
  | .vpayload w _ _ => .ok w
  | _ => .error .attributeError

/-- Attribute access `payload.actions`. -/
def attrActions : Value → Except PyErr Value
  | .vpayload _ a _ => .ok a
  | _ => .error .attributeError

/-- Attribute access `world_state_tuple.environment_states`. -/
def attrEnvironmentStates : Value → Except PyErr Value
  | .vworld e _ _ => .ok e
  | _ => .error .attributeError

/-- Python subscription `container[key]` for the shapes this pipeline can
meet: dict lookup by equality (`KeyError` when absent); `Payload.__getitem__`
is overridden to `getattr`, so only its three field names resolve; the other
shapes raise. -/
def pySubscript : Value → Value → Except PyErr Value
  | .vdict kvs, key =>
      match kvs.find? (fun kv => beqV kv.1 key) with
      | some kv => .ok kv.2
      | none => .error .keyError
  | .vpayload w a m, key =>
      if beqV key (.vstr (ascii "world_state")) then .ok w
      else if beqV key (.vstr (ascii "actions")) then .ok a
      else if beqV key (.vstr (ascii "metadata")) then .ok m
      else .error .attributeError
  | _, _ => .error .typeError

/-- Python truthiness, for `if actions else ""`.  A `Payload` is falsy: as a
dict subclass its `len` is that of its (empty) mapping storage.  The two
IEEE-754 zero patterns are the falsy floats. -/
def pyTruthy : Value → Bool
  | .vlist xs => !xs.isEmpty
  | .vdict kvs => !kvs.isEmpty
  | .vstr s => !s.isEmpty
  | .vint n => n != 0
  | .vfloat bits => bits != 0 && bits != 2 ^ 63
  | .vbool b => b
  | .vpayload _ _ _ => false
  | .vworld _ _ _ => true
  | .vnone => false

/-- Python `random.choice(seq)` with the random draw abstracted as `pick`;
an empty sequence raises `IndexError` (the call site guards with
truthiness).  The non-sequence shapes never reach this call. -/
def pyChoice (pick : List Value → Value) : Value → Except PyErr Value
  | .vlist xs => if xs.isEmpty then .error .indexError else .ok (pick xs)
  | .vstr s => if s.isEmpty then .error .indexError
      else .ok (pick (s.map (fun c => .vstr [c])))
  | _ => .error .typeError

/-- f-string rendering `f"{x}"` of the values the pipeline interpolates.
Strings render as themselves; ints, bools and None as their `str` form; the
remaining shapes (never interpolated by any theorem below) abbreviate their
`repr` with a placeholder. -/
def pyStr : Value → List Nat
  | .vstr s => s
  | .vint n => ascii (toString n)
  | .vbool b => if b then ascii "True" else ascii "False"
  | .vnone => ascii "None"
  | _ => ascii "<repr>"

/-- The gossip id: `hashlib.md5(f"...").hexdigest()` abstracted as the
identity on the hash input — no claim inspects the digest bytes, only how
the input is assembled. -/
def md5Hex (s : List Nat) : List Nat := s

/-- One gossip tuple from one payload (the `for payload in all_payloads`
body, `dht_pub.py:212-233`), evaluated in source order. -/
def gossip_of_payload (pick : List Value → Value) (nameOf : List Nat → List Nat)
    (nowTs round : Int) (peerId : List Nat) (payload : Value) :
    Except PyErr (Int × GossipDatum) := do
  let world_state_tuple ← attrWorldState payload
  let env ← attrEnvironmentStates world_state_tuple
  let question ← pySubscript env (.vstr (ascii "question"))
  let actions ← attrActions payload
  let md ← pySubscript env (.vstr (ascii "metadata"))
  let source_dataset ← pySubscript md (.vstr (ascii "source_dataset"))
  let action ← if pyTruthy actions then pyChoice pick actions else .ok (.vstr [])
  let gid := md5Hex (pyStr question ++ ascii "-" ++ peerId ++ ascii "-"
      ++ ascii (toString round) ++ ascii "-" ++ pyStr action ++ ascii "-"
      ++ pyStr source_dataset)
  .ok (nowTs,
    { gid := gid
      message := pyStr question ++ ascii "..." ++ pyStr action
      node := nameOf peerId
      nodeId := peerId
      dataset := source_dataset })

/-- One iteration of the `for peer_id, value_with_expiration` loop: decode
the peer's bytes, flatten `payload_dict.items()` into `all_payloads`, and
derive one gossip tuple per payload. -/
def peer_gossip (pick : List Value → Value) (nameOf : List Nat → List Nat)
    (nowTs round : Int) (peerId : List Nat) (bs : List Nat) :
    Except PyErr (List (Int × GossipDatum)) := do
  let payload_dict ← (from_bytes bs).mapError PyErr.decodeErr
  let kvs ← pyItems payload_dict
  let all_payloads ← kvs.foldlM (fun acc kv => do
      let elems ← pyIterElems kv.2
      pure (acc ++ elems)) []
  all_payloads.mapM (gossip_of_payload pick nameOf nowTs round peerId)

/-- Observable outcome of one polling cycle. -/
structure PollResult where
  currentRound : Int
  currentStage : Int
  published : Option (List (Int × GossipDatum))
  errorLogged : Bool

/-- Embedding of `GossipDHTPublisher._poll_once`.  The entire body runs
inside one `try`, so *any* exception — including a decode failure of a
single peer's bytes — aborts the cycle: the error is logged and nothing is
published.  On success the gossip list is shuffled, truncated to 200 and
published when nonempty (`_publish_gossip` is a no-op on an empty list). -/
def poll_once (prevRound prevStage : Int)
    (oracle : Except Unit (Int × Int))
    (store : Int → Option (List (List Nat × List Nat)))
    (pick : List Value → Value)
    (shuffle : List (Int × GossipDatum) → List (Int × GossipDatum))
    (nameOf : List Nat → List Nat)
    (nowTs : Int) : PollResult :=
  match oracle with
  | .error _ => ⟨prevRound, prevStage, none, true⟩
  | .ok (newRound, newStage) =>
    match store newRound with
    | none => ⟨newRound, newStage, none, false⟩
    | some record =>
      match record.foldlM (fun acc pb =>
          (peer_gossip pick nameOf nowTs newRound pb.1 pb.2).map (acc ++ ·)) [] with
      | .error _ => ⟨newRound, newStage, none, true⟩
      | .ok round_gossip =>
        let batch := (shuffle round_gossip).take 200
        ⟨newRound, newStage, if batch.isEmpty then none else some batch, false⟩

/-! ## The reward-submission controller and round barrier (`manager.py`)

The controller state is the four fields of `SwarmGameManager` that these
hooks touch; Python floats carry over as rationals (no rounding is
involved: only accumulation, comparison and `int()` truncation).  Ledger
calls are recorded in issue order, including the calls whose transport
raises; `rewardOk` / `winnersOk` say whether `submit_reward` /
`submit_winners` succeed. -/

structure ManagerState where
  round : Nat
  batchedSignals : Rat
  timeSinceSubmit : Rat
  submittedThisRound : Bool
  peerId : List Nat

inductive LedgerCall where
  | submitReward (round stage : Nat) (amount : Int) (peer : List Nat)
  | submitWinners (round : Nat) (winners : List (List Nat)) (peer : List Nat)
  deriving DecidableEq

/-- Python `int(x)` on a float: truncation toward zero. -/
def pyInt (q : Rat) : Int := if 0 ≤ q then ⌊q⌋ else ⌈q⌉

/-- Python `max(items, key=lambda x: x[1])` on a nonempty list: the first
entry whose value is maximal (later entries replace only on strict
increase). -/
def pyMaxBySnd (hd : List Nat × Rat) (tl : List (List Nat × Rat)) : List Nat × Rat :=
  tl.foldl (fun best x => if best.2 < x.2 then x else best) hd

/-- `SwarmGameManager._try_submit_to_chain`.  Gate: more than
`submit_period = 3.0` hours since `time_since_submit` (the
`submitted_this_round` flag is *not* consulted here).  Inside the `try`:
`submit_reward(round, 0, int(batched_signals), peer_id)`; on its success the
accumulator is zeroed *before* `submit_winners` is attempted, so a failure
of the winners call leaves the accumulator already cleared while the round
stays unmarked; only after both calls succeed are the timer and the flag
set.  (The second `time.time()` call is identified with `now`.) -/
def try_submit_to_chain (st : ManagerState) (signalByAgent : List (List Nat × Rat))
    (now : Rat) (rewardOk winnersOk : Bool) : ManagerState × List LedgerCall :=
  if (now - st.timeSinceSubmit) / 3600 > 3 then
    let c1 := LedgerCall.submitReward st.round 0 (pyInt st.batchedSignals) st.peerId
    if rewardOk then
      let st1 := { st with batchedSignals := 0 }
      let maxAgent := match signalByAgent with
        | [] => st.peerId
        | hd :: tl => (pyMaxBySnd hd tl).1
      let c2 := LedgerCall.submitWinners st.round [maxAgent] st.peerId
      if winnersOk then
        ({ st1 with timeSinceSubmit := now, submittedThisRound := true }, [c1, c2])
      else (st1, [c1, c2])
    else (st, [c1])
  else (st, [])

/-- `_get_my_rewards`: `(my_signal + 1) * (my_signal > 0) + my_signal *
(my_signal <= 0)`, i.e. a positive signal is incremented by one. -/
def get_my_rewards (signalByAgent : List (List Nat × Rat)) (peerId : List Nat) : Rat :=
  if signalByAgent.isEmpty then 0
  else
    let mySignal := match signalByAgent.find? (fun kv => kv.1 == peerId) with
      | some kv => kv.2
      | none => 0
    if 0 < mySignal then mySignal + 1 else mySignal

/-- `_hook_after_rewards_updated`: add this peer's reward to the
accumulator, then try to submit — unconditionally, with no look at the
`submitted_this_round` flag.  (`_get_total_rewards_by_agent` aggregates
trainer state outside this core and enters as `signalByAgent`.) -/
def hook_after_rewards_updated (st : ManagerState) (signalByAgent : List (List Nat × Rat))
    (now : Rat) (rewardOk winnersOk : Bool) : ManagerState × List LedgerCall :=
  try_submit_to_chain
    { st with batchedSignals := st.batchedSignals + get_my_rewards signalByAgent st.peerId }
    signalByAgent now rewardOk winnersOk

/-- The submission part of `_hook_after_round_advanced`
(`manager.py:238-244`): re-try only when the round is not yet marked
submitted, then clear the flag for the next round.  (The PRG-game block,
the HF push and the trailing `agent_block` call touch neither the
accumulator, the flag nor the reward ledger.) -/
def hook_after_round_advanced (st : ManagerState) (signalByAgent : List (List Nat × Rat))
    (now : Rat) (rewardOk winnersOk : Bool) : ManagerState × List LedgerCall :=
  let r := if !st.submittedThisRound
    then try_submit_to_chain st signalByAgent now rewardOk winnersOk
    else (st, [])
  ({ r.1 with submittedThisRound := false }, r.2)

/-- Terminal states of the round barrier. -/
inductive BlockOutcome where
  | advanced
  | timedOut
  deriving DecidableEq

/-- `SwarmGameManager.agent_block`, abstracted over the sequence of oracle
responses: each loop iteration consumes one `get_round_and_stage` result
(an exception keeps polling; a result with `round_num >= state.round`
advances the cursor and returns; otherwise the final-round check
`round_num == max_round - 1` can still return without advancing), and the
`train_timeout` expiry is reaching the end of the list.  Returns (number of
responses consumed, final local round, outcome); sleeping and backoff do
not affect these observables. -/
def agent_block (maxRound : Nat) : Nat → List (Except Unit (Nat × Nat)) →
    Nat × Nat × BlockOutcome
  | r, [] => (0, r, .timedOut)
  | r, resp :: rest =>
      match resp with
      | .error _ =>
          let o := agent_block maxRound r rest
          (o.1 + 1, o.2)
      | .ok (round_num, _stage) =>
          if r ≤ round_num then (1, round_num, .advanced)
          else if round_num = maxRound - 1 then (1, r, .advanced)
          else
            let o := agent_block maxRound r rest
            (o.1 + 1, o.2)

end RlSwarm

namespace RlSwarm

/-! ## The claims -/

/-- C1: the spec claims full round-trip fidelity of the wire codec,
booleans included; the code cannot deliver it.  `boolean_from_bytes`
returns `b[i] == b"0"`, an `int`-to-`bytes` comparison that is `False` for
every byte, so `from_bytes(to_bytes(True))` yields `False`, and the
re-encoding of that decode differs from the original byte string.  (For
boolean-free wellformed values the round trip does hold:
`from_bytes_to_bytes`.) -/
theorem claim_C1_boolean_roundtrip_bug :
    from_bytes (to_bytes (Value.vbool true)) = .ok (Value.vbool false)
    ∧ to_bytes (Value.vbool false) ≠ to_bytes (Value.vbool true) := by
  exact ⟨rfl, by decide⟩

/-- Total two's-complement round-trip widths exist (witness: the
`sys.getsizeof` width). -/
theorem twosWidth_exists (v : Int) :
    ∃ w, intFromBytesSigned (intToBytesSigned v w) = v :=
  ⟨pyGetSizeOf v, intFromBytesSigned_intToBytesSigned v _ (two_mul_natAbs_lt_getsizeof v)⟩

/-- Modelled from the spec: the minimum byte width that represents `v` in
two's complement, read semantically — the least `w` for which the `w`-byte
signed encode/decode round trip preserves `v` (for `v = 0` this is `0`:
Python's `(0).to_bytes(0, signed=True)` is `b""` and decodes back to 0). -/
def minTwosWidth (v : Int) : Nat := Nat.find (twosWidth_exists v)

/-- C2 counterexample: for `v = 0` the 8-byte length prefix written by
`int_to_bytes` reads back 28 = `sys.getsizeof(0)`, not the minimum
two's-complement width. -/
theorem claim_C2_counterexample :
    natFromBytes (slice (to_bytes (Value.vint 0)) 8 8) = 28
    ∧ minTwosWidth 0 = 0
    ∧ (28 : Nat) ≠ 0 := by
  refine ⟨by decide, ?_, by decide⟩
  exact (Nat.find_eq_zero (twosWidth_exists 0)).mpr (by decide)

/-- C2 amended: `int_to_bytes` frames the integer on `sys.getsizeof(v)`
bytes — CPython's object size, 28 for small ints — not on the minimal
two's-complement width: the 8-byte length prefix equals `sys.getsizeof(v)`,
exactly that many content bytes follow, and the decoder reads the width
from the prefix (never assuming a fixed width), recovering `v`. -/
theorem claim_C2_amended (v : Int) (h : pyGetSizeOf v < 2 ^ 64) :
    to_bytes (Value.vint v)
      = bytesBE 8 4 ++ bytesBE 8 (pyGetSizeOf v) ++ intToBytesSigned v (pyGetSizeOf v)
    ∧ (intToBytesSigned v (pyGetSizeOf v)).length = pyGetSizeOf v
    ∧ from_bytes (to_bytes (Value.vint v)) = .ok (Value.vint v) := by
  refine ⟨rfl, by simp [intToBytesSigned], ?_⟩
  obtain ⟨w, hw, himp⟩ := from_bytes_to_bytes (Value.vint v)
    (by simp only [pyVal, decide_eq_true_eq]; omega)
  rw [hw, himp (by rfl)]

theorem claim_C2_amended_witness :
    pyGetSizeOf 0 < 2 ^ 64
    ∧ (to_bytes (Value.vint 0)
        = bytesBE 8 4 ++ bytesBE 8 (pyGetSizeOf 0) ++ intToBytesSigned 0 (pyGetSizeOf 0)
      ∧ (intToBytesSigned 0 (pyGetSizeOf 0)).length = pyGetSizeOf 0
      ∧ from_bytes (to_bytes (Value.vint 0)) = .ok (Value.vint 0)) :=
  ⟨by decide, claim_C2_amended 0 (by decide)⟩

/-- C7 counterexample: a length prefix claiming more bytes than remain does
*not* fail with a TruncatedInput error — Python slicing truncates silently,
and `int_from_bytes` decodes the short slice: here the prefix claims 5
bytes, 2 remain, and decoding succeeds with the value 258 = 0x0102. -/
theorem claim_C7_counterexample :
    from_bytes (bytesBE 8 4 ++ bytesBE 8 5 ++ [1, 2]) = .ok (Value.vint 258)
    ∧ ([1, 2] : List Nat).length < 5 :=
  ⟨rfl, by decide⟩

/-- C7 amended: the decoder fails with the unrecognized-tag `RuntimeError`
whenever the leading 8-byte tag is outside 1..9, and succeeds on every
encoding of a wellformed value; but a length prefix claiming more bytes
than remain is *not* detected — the slice truncates silently (shown here on
an integer frame claiming 100 bytes with 3 remaining). -/
theorem claim_C7_amended :
    (∀ b : List Nat,
      (natFromBytes (slice b 0 8) < 1 ∨ 9 < natFromBytes (slice b 0 8)) →
      from_bytes b = .error (.unknownTag (natFromBytes (slice b 0 8))))
    ∧ (∀ v : Value, pyVal v = true → ∃ w, from_bytes (to_bytes v) = .ok w)
    ∧ from_bytes (bytesBE 8 4 ++ bytesBE 8 100 ++ [1, 2, 3]) = .ok (Value.vint 66051) := by
  refine ⟨?_, ?_, rfl⟩
  · intro b hb
    unfold from_bytes
    rw [from_bytes_at_succ]
    simp only [from_bytes_core]
    have h1 : ¬ (natFromBytes (slice b 0 8) = 1) := by omega
    have h2 : ¬ (natFromBytes (slice b 0 8) = 2) := by omega
    have h3 : ¬ (natFromBytes (slice b 0 8) = 3) := by omega
    have h4 : ¬ (natFromBytes (slice b 0 8) = 4) := by omega
    have h5 : ¬ (natFromBytes (slice b 0 8) = 5) := by omega
    have h6 : ¬ (natFromBytes (slice b 0 8) = 6) := by omega
    have h7 : ¬ (natFromBytes (slice b 0 8) = 7) := by omega
    have h8 : ¬ (natFromBytes (slice b 0 8) = 8) := by omega
    have h9 : ¬ (natFromBytes (slice b 0 8) = 9) := by omega
    simp [h1, h2, h3, h4, h5, h6, h7, h8, h9, Except.map]
  · intro v hv
    obtain ⟨w, hw, _⟩ := from_bytes_to_bytes v hv
    exact ⟨w, hw⟩

theorem claim_C7_amended_witness :
    (natFromBytes (slice (bytesBE 8 77) 0 8) < 1 ∨ 9 < natFromBytes (slice (bytesBE 8 77) 0 8))
    ∧ from_bytes (bytesBE 8 77) = .error (.unknownTag (natFromBytes (slice (bytesBE 8 77) 0 8)))
    ∧ pyVal Value.vnone = true
    ∧ (∃ w, from_bytes (to_bytes Value.vnone) = .ok w) :=
  ⟨by decide, claim_C7_amended.1 (bytesBE 8 77) (by decide), by decide,
    claim_C7_amended.2.1 Value.vnone (by decide)⟩

/-- C6 counterexample: with `r_local = 0` and oracle responses
`[(0,0), (0,0), (1,0), (1,1)]`, the barrier does *not* return after the
third response with the cursor at 1 — `agent_block` compares with `>=`, so
the very first response `(0, 0)` already satisfies `round_num >= r_local`. -/
theorem claim_C6_counterexample :
    ¬ (agent_block 10 0 [.ok (0, 0), .ok (0, 0), .ok (1, 0), .ok (1, 1)]
        = (3, 1, .advanced)) := by
  decide

/-- C6 amended: on that response sequence the barrier returns exactly once,
after the *first* response, leaving the local round cursor at 0 (the `>=`
comparison releases the barrier as soon as the oracle's round equals the
local round). -/
theorem claim_C6_amended :
    agent_block 10 0 [.ok (0, 0), .ok (0, 0), .ok (1, 0), .ok (1, 1)]
      = (1, 0, .advanced) := by
  decide

/-- Concrete controller state used by the submission counterexamples. -/
def c4_state : ManagerState :=
  { round := 5, batchedSignals := 5, timeSinceSubmit := 0,
    submittedThisRound := false, peerId := ascii "p" }

/-- C4 counterexample: with 5.0 accumulated and the submit period elapsed,
when `submit_reward` succeeds and `submit_winners` raises, the attempt
leaves the accumulator at 0 — the accumulated signal is lost, although a
ledger call raised. -/
theorem claim_C4_counterexample :
    (try_submit_to_chain c4_state [] 14400 true false).1.batchedSignals = 0
    ∧ c4_state.batchedSignals = 5
    ∧ (try_submit_to_chain c4_state [] 14400 true false).1.submittedThisRound = false := by
  refine ⟨?_, by norm_num [c4_state], ?_⟩ <;>
    norm_num [try_submit_to_chain, c4_state]

/-- C4 amended: a failing `submit_reward` (the first ledger call) leaves
the whole state unchanged; a failing `submit_winners` still leaves the
round unmarked and the timer unadvanced (no success is signalled), but the
accumulator has by then already been zeroed whenever the submit gate was
open. -/
theorem claim_C4_amended (st : ManagerState) (sig : List (List Nat × Rat))
    (now : Rat) (wo : Bool) :
    (try_submit_to_chain st sig now false wo).1 = st
    ∧ (try_submit_to_chain st sig now true false).1.submittedThisRound
        = st.submittedThisRound
    ∧ (try_submit_to_chain st sig now true false).1.timeSinceSubmit
        = st.timeSinceSubmit
    ∧ ((now - st.timeSinceSubmit) / 3600 > 3 →
        (try_submit_to_chain st sig now true false).1.batchedSignals = 0) := by
  by_cases h : (now - st.timeSinceSubmit) / 3600 > 3 <;>
    simp [try_submit_to_chain, h]

theorem claim_C4_amended_witness :
    ((14400 - c4_state.timeSinceSubmit) / 3600 > 3)
    ∧ (try_submit_to_chain c4_state [] 14400 true false).1.batchedSignals = 0 :=
  ⟨by norm_num [c4_state], (claim_C4_amended c4_state [] 14400 true).2.2.2
    (by norm_num [c4_state])⟩

/-- Concrete controller state with the submitted flag already set. -/
def c5_state : ManagerState :=
  { round := 7, batchedSignals := 2, timeSinceSubmit := 0,
    submittedThisRound := true, peerId := ascii "p" }

/-- C5 counterexample: the submitted-this-round flag does not stop
`_try_submit_to_chain` — with the flag set and the 3-hour period elapsed, a
submit attempt performs both ledger calls again. -/
theorem claim_C5_counterexample :
    c5_state.submittedThisRound = true
    ∧ (try_submit_to_chain c5_state [] 14400 true true).2
        = [LedgerCall.submitReward 7 0 2 (ascii "p"),
           LedgerCall.submitWinners 7 [ascii "p"] (ascii "p")] := by
  exact ⟨rfl, by norm_num [try_submit_to_chain, c5_state, pyInt]⟩

/-- C5 amended: after a recorded success the *end-of-round hook* performs
no further submit attempt (it checks the flag), and within the 3-hour
submit period `_try_submit_to_chain` makes no network call and changes
nothing; but `_try_submit_to_chain` itself never consults the flag, so a
rewards-updated hook more than 3 hours after the last successful
submission submits again for the same round (see the counterexample). -/
theorem claim_C5_amended (st : ManagerState) (sig : List (List Nat × Rat))
    (now : Rat) (ro wo : Bool) :
    (st.submittedThisRound = true →
      hook_after_round_advanced st sig now ro wo
        = ({ st with submittedThisRound := false }, []))
    ∧ (¬ ((now - st.timeSinceSubmit) / 3600 > 3) →
      try_submit_to_chain st sig now ro wo = (st, [])) := by
  constructor
  · intro h
    simp [hook_after_round_advanced, h]
  · intro h
    simp [try_submit_to_chain, h]

theorem claim_C5_amended_witness :
    c5_state.submittedThisRound = true
    ∧ hook_after_round_advanced c5_state [] 14400 true true
        = ({ c5_state with submittedThisRound := false }, [])
    ∧ ¬ ((3600 - c5_state.timeSinceSubmit) / 3600 > 3)
    ∧ try_submit_to_chain c5_state [] 3600 true true = (c5_state, []) :=
  ⟨rfl, (claim_C5_amended c5_state [] 14400 true true).1 rfl, by norm_num [c5_state],
    (claim_C5_amended c5_state [] 3600 true true).2 (by norm_num [c5_state])⟩

/-- C10: every reward submission the controller issues carries the constant
0 as the stage argument and `int(batched_signals)` — the truncation toward
zero of the floating-point accumulator — as the amount (and the current
round and peer id as the other arguments). -/
theorem claim_C10_reward_args (st : ManagerState) (sig : List (List Nat × Rat))
    (now : Rat) (ro wo : Bool) :
    ∀ r s amt p,
      LedgerCall.submitReward r s amt p ∈ (try_submit_to_chain st sig now ro wo).2 →
      s = 0 ∧ amt = pyInt st.batchedSignals ∧ r = st.round ∧ p = st.peerId := by
  intro r s amt p h
  unfold try_submit_to_chain at h
  by_cases hg : (now - st.timeSinceSubmit) / 3600 > 3
  · rw [if_pos hg] at h
    cases ro
    · simp at h
      obtain ⟨h1, h2, h3, h4⟩ := h
      exact ⟨h2, h3, h1, h4⟩
    · cases wo <;> simp at h <;>
        · obtain ⟨h1, h2, h3, h4⟩ := h
          exact ⟨h2, h3, h1, h4⟩
  · rw [if_neg hg] at h
    simp at h

theorem claim_C10_reward_args_witness :
    LedgerCall.submitReward 5 0 5 (ascii "p")
        ∈ (try_submit_to_chain c4_state [] 14400 true false).2
    ∧ ((0 : Nat) = 0 ∧ (5 : Int) = pyInt c4_state.batchedSignals
        ∧ (5 : Nat) = c4_state.round ∧ ascii "p" = c4_state.peerId) :=
  ⟨by norm_num [try_submit_to_chain, c4_state, pyInt],
    claim_C10_reward_args c4_state [] 14400 true false 5 0 5 (ascii "p")
      (by norm_num [try_submit_to_chain, c4_state, pyInt])⟩

end RlSwarm

namespace RlSwarm

/-- A decode failure of a peer's bytes surfaces from `peer_gossip` as that
decode error. -/
theorem peer_gossip_error_of_decode (pick : List Value → Value)
    (nameOf : List Nat → List Nat) (nowTs round : Int) (p bs : List Nat)
    (e : DecodeErr) (h : from_bytes bs = .error e) :
    peer_gossip pick nameOf nowTs round p bs = .error (.decodeErr e) := by
  unfold peer_gossip
  rw [h]
  rfl

/-- If any entry of the record fails to decode, the whole per-peer
accumulation of `_poll_once` fails. -/
theorem gossip_fold_error (pick : List Value → Value) (nameOf : List Nat → List Nat)
    (nowTs round : Int) :
    ∀ (record : List (List Nat × List Nat)) (acc : List (Int × GossipDatum)),
    (∃ pb ∈ record, ∃ e, from_bytes pb.2 = Except.error e) →
    ∃ e', record.foldlM (fun acc pb =>
        (peer_gossip pick nameOf nowTs round pb.1 pb.2).map (acc ++ ·)) acc
      = .error e'
  | [], acc, h => by simp at h
  | (p, bs) :: rest, acc, h => by
      rcases hpe : peer_gossip pick nameOf nowTs round p bs with e0 | lst
      · exact ⟨e0, by simp [List.foldlM_cons, hpe, Except.map, bind, Except.bind]⟩
      · have htail : ∃ pb ∈ rest, ∃ e, from_bytes pb.2 = Except.error e := by
          rcases h with ⟨pb, hmem, e, hdec⟩
          rcases List.mem_cons.mp hmem with heq | hmem'
          · exfalso
            subst heq
            have hbadpg := peer_gossip_error_of_decode pick nameOf nowTs round p bs e hdec
            rw [hbadpg] at hpe
            exact Except.noConfusion hpe
          · exact ⟨pb, hmem', e, hdec⟩
        obtain ⟨e', he'⟩ := gossip_fold_error pick nameOf nowTs round rest (acc ++ lst) htail
        refine ⟨e', ?_⟩
        simp only [List.foldlM_cons, hpe, Except.map, bind, Except.bind]
        simp only [Except.map] at he'
        exact he'

/-- C3 amended: `_poll_once` wraps the entire cycle in a single `try`, so a
decode failure of any one peer's byte string aborts the whole cycle — one
error is logged and *nothing* is published; the other peers' successfully
decoded entries are discarded rather than published. -/
theorem claim_C3_amended (prevRound prevStage r s : Int)
    (store : Int → Option (List (List Nat × List Nat)))
    (record : List (List Nat × List Nat))
    (pick : List Value → Value)
    (shuffle : List (Int × GossipDatum) → List (Int × GossipDatum))
    (nameOf : List Nat → List Nat) (nowTs : Int)
    (hstore : store r = some record)
    (hbad : ∃ pb ∈ record, ∃ e, from_bytes pb.2 = Except.error e) :
    (poll_once prevRound prevStage (.ok (r, s)) store pick shuffle nameOf nowTs).published
        = none
    ∧ (poll_once prevRound prevStage (.ok (r, s)) store pick shuffle nameOf nowTs).errorLogged
        = true := by
  obtain ⟨e', he'⟩ := gossip_fold_error pick nameOf nowTs r record [] hbad
  simp only [poll_once]
  simp only [hstore, he']
  constructor <;> trivial

/-- Concrete fully-gossipable payload of the spec's concrete scenario (§8):
`Payload(world_state=WorldState({"question": "2+2?", "metadata":
{"source_dataset": "math"}}, None, None), actions=["4"], metadata=None)`. -/
def samplePayload : Value :=
  .vpayload
    (.vworld
      (.vdict [(.vstr (ascii "question"), .vstr (ascii "2+2?")),
               (.vstr (ascii "metadata"),
                .vdict [(.vstr (ascii "source_dataset"), .vstr (ascii "math"))])])
      .vnone .vnone)
    (.vlist [.vstr (ascii "4")])
    .vnone

/-- Round record with one decodable peer and one corrupt peer. -/
def c3_record : List (List Nat × List Nat) :=
  [(ascii "alice",
    to_bytes (Value.vdict [(Value.vstr (ascii "k"), Value.vlist [samplePayload])])),
   (ascii "bob", [0])]

/-- Store holding `c3_record` under round key 2. -/
def c3_store : Int → Option (List (List Nat × List Nat)) :=
  fun k => if k = 2 then some c3_record else none

set_option maxHeartbeats 4000000 in
/-- C3 counterexample: with peer "alice" fully decodable and peer "bob"
corrupt (a single stray byte), one polling cycle publishes *nothing* — not
a batch with alice's entries — and logs one error. -/
theorem claim_C3_counterexample :
    poll_once (-1) (-1) (.ok (2, 0)) c3_store (fun xs => xs.headD .vnone) id id 1000
      = ⟨2, 0, none, true⟩ := rfl

theorem claim_C3_amended_witness :
    c3_store 2 = some c3_record
    ∧ (∃ pb ∈ c3_record, ∃ e, from_bytes pb.2 = Except.error e)
    ∧ (poll_once (-1) (-1) (.ok (2, 0)) c3_store (fun xs => xs.headD .vnone) id id
          1000).published = none :=
  ⟨rfl,
   ⟨(ascii "bob", [0]), by decide, ⟨.unknownTag 0, rfl⟩⟩,
   (claim_C3_amended (-1) (-1) 2 0 c3_store c3_record (fun xs => xs.headD .vnone) id id 1000
      rfl ⟨(ascii "bob", [0]), by decide, ⟨.unknownTag 0, rfl⟩⟩).1⟩

/-- Store of the spec's concrete scenario: the encoded `samplePayload` is
the sole entry for peer "p1" under round key 2. -/
def c9_store : Int → Option (List (List Nat × List Nat)) :=
  fun k => if k = 2 then some [(ascii "p1", to_bytes samplePayload)] else none

set_option maxHeartbeats 4000000 in
/-- C9: the codec half of the scenario holds — the encoded payload decodes
back to an equal structure — but the pipeline half fails in the code: the
decoded object is a `Payload`, whose `.items()` is empty (the dataclass
fields are attributes, not mapping entries), so `all_payloads` stays empty
and the cycle publishes *nothing*, with no error logged, instead of the one
"2+2?...4"/"math" event the claim (and the repo's own
`test_publish_gossip_with_real_payload`) expects. -/
theorem claim_C9_scenario :
    from_bytes (to_bytes samplePayload) = .ok samplePayload
    ∧ poll_once (-1) (-1) (.ok (2, 0)) c9_store (fun xs => xs.headD .vnone) id id 1000
        = ⟨2, 0, none, false⟩ :=
  ⟨rfl, rfl⟩

end RlSwarm

namespace RlSwarm

/-- Deterministic stand-in for `random.choice`: the first element. -/
def c8_pick : List Value → Value := fun xs => xs.headD .vnone

/-- A family of gossipable payloads distinguished by their one-byte
question. -/
def c8_payload (k : Nat) : Value :=
  .vpayload
    (.vworld
      (.vdict [(.vstr (ascii "question"), .vstr [k]),
               (.vstr (ascii "metadata"),
                .vdict [(.vstr (ascii "source_dataset"), .vstr (ascii "math"))])])
      .vnone .vnone)
    (.vlist [.vstr (ascii "4")])
    .vnone

/-- The gossip dict derived from `c8_payload k` by the pipeline. -/
def c8_datum (k : Nat) : GossipDatum :=
  { gid := [k] ++ ascii "-" ++ ascii "p1" ++ ascii "-" ++ ascii "2" ++ ascii "-"
      ++ ascii "4" ++ ascii "-" ++ ascii "math"
    message := [k] ++ ascii "..." ++ ascii "4"
    node := ascii "p1"
    nodeId := ascii "p1"
    dataset := .vstr (ascii "math") }

/-- A round record carrying 201 decodable payloads under one peer. -/
def c8_value : Value :=
  .vdict [(.vstr (ascii "k"), .vlist ((List.range 201).map c8_payload))]

/-- The candidate gossip list those payloads produce. -/
def c8_entries : List (Int × GossipDatum) :=
  (List.range 201).map (fun k => ((1000 : Int), c8_datum k))

/-- Store holding the 201-payload record under round key 2. -/
def c8_store : Int → Option (List (List Nat × List Nat)) :=
  fun k => if k = 2 then some [(ascii "p1", to_bytes c8_value)] else none

theorem c8_value_pyVal : pyVal c8_value = true := by decide

theorem c8_value_noBool : noBoolV c8_value = true := by decide

theorem c8_decode : from_bytes (to_bytes c8_value) = .ok c8_value := by
  obtain ⟨w, hw, himp⟩ := from_bytes_to_bytes c8_value c8_value_pyVal
  rw [hw, himp c8_value_noBool]

theorem c8_gossip (k : Nat) :
    gossip_of_payload c8_pick id 1000 2 (ascii "p1") (c8_payload k)
      = .ok (1000, c8_datum k) := rfl

/-- Mapping an elementwise-successful monadic action over a mapped list. -/
theorem mapM_ok_map {α β γ : Type} (f : β → Except PyErr γ) (gen : α → β) (g : α → γ) :
    ∀ l : List α, (∀ x ∈ l, f (gen x) = .ok (g x)) →
      (l.map gen).mapM f = .ok (l.map g)
  | [], _ => rfl
  | x :: t, h => by
      have hx := h x (List.mem_cons_self x t)
      have ht := mapM_ok_map f gen g t (fun y hy => h y (List.mem_cons_of_mem x hy))
      simp only [List.map_cons, List.mapM_cons, hx, ht, bind, Except.bind, pure, Except.pure]

/-- Per-peer gossip of a record whose decoded dict has one key holding a
list of payloads, given the elementwise gossip results. -/
theorem peer_gossip_single (pick : List Value → Value) (nameOf : List Nat → List Nat)
    (nowTs round : Int) (peerId : List Nat) (bs : List Nat)
    (key : Value) (l : List Value) (out : List (Int × GossipDatum))
    (hdec : from_bytes bs = .ok (.vdict [(key, .vlist l)]))
    (hmap : l.mapM (gossip_of_payload pick nameOf nowTs round peerId) = .ok out) :
    peer_gossip pick nameOf nowTs round peerId bs = .ok out := by
  unfold peer_gossip
  rw [hdec]
  simp only [Except.mapError, bind, Except.bind, pyItems, List.foldlM_cons,
    List.foldlM_nil, pyIterElems, pure, Except.pure, List.nil_append, hmap]

theorem c8_peer_gossip :
    peer_gossip c8_pick id 1000 2 (ascii "p1") (to_bytes c8_value) = .ok c8_entries := by
  refine peer_gossip_single _ _ _ _ _ _ _ _ _ c8_decode ?_
  exact mapM_ok_map _ c8_payload _ (List.range 201) (fun k _ => c8_gossip k)

theorem c8_entries_length : c8_entries.length = 201 := by
  simp [c8_entries]

/-- One polling cycle whose gossip fold succeeds with candidates `rg`
publishes the shuffled candidate list truncated to 200 entries (or nothing
when that truncation is empty). -/
theorem poll_once_of_fold_ok (prevRound prevStage r s : Int)
    (store : Int → Option (List (List Nat × List Nat)))
    (record : List (List Nat × List Nat))
    (pick : List Value → Value)
    (shuffle : List (Int × GossipDatum) → List (Int × GossipDatum))
    (nameOf : List Nat → List Nat) (nowTs : Int)
    (rg : List (Int × GossipDatum))
    (hstore : store r = some record)
    (hfold : record.foldlM (fun acc pb =>
        (peer_gossip pick nameOf nowTs r pb.1 pb.2).map (acc ++ ·)) []
      = .ok rg) :
    poll_once prevRound prevStage (.ok (r, s)) store pick shuffle nameOf nowTs
      = ⟨r, s, if ((shuffle rg).take 200).isEmpty then none
               else some ((shuffle rg).take 200), false⟩ := by
  simp only [poll_once]
  simp only [hstore, hfold]

/-- Per-peer gossip fold of a one-entry record. -/
theorem gossip_fold_singleton (pick : List Value → Value)
    (nameOf : List Nat → List Nat) (nowTs r : Int) (p bs : List Nat)
    (out : List (Int × GossipDatum))
    (h : peer_gossip pick nameOf nowTs r p bs = .ok out) :
    [(p, bs)].foldlM (fun acc pb =>
        (peer_gossip pick nameOf nowTs r pb.1 pb.2).map (acc ++ ·)) []
      = .ok out := by
  simp only [List.foldlM_cons, List.foldlM_nil, h, Except.map, bind, Except.bind,
    pure, Except.pure, List.nil_append]

/-- Published batch of the 201-candidate cycle, for any shuffle. -/
theorem c8_poll_published
    (shuffle : List (Int × GossipDatum) → List (Int × GossipDatum)) :
    (poll_once (-1) (-1) (.ok (2, 0)) c8_store c8_pick shuffle id 1000).published
      = if ((shuffle c8_entries).take 200).isEmpty then none
        else some ((shuffle c8_entries).take 200) := by
  rw [poll_once_of_fold_ok (-1) (-1) 2 0 c8_store [(ascii "p1", to_bytes c8_value)]
    c8_pick shuffle id 1000 c8_entries rfl
    (gossip_fold_singleton c8_pick id 1000 2 (ascii "p1") (to_bytes c8_value)
      c8_entries c8_peer_gossip)]

theorem c8_isEmpty_id : (c8_entries.take 200).isEmpty = false := by
  have h : (c8_entries.take 200).length = 200 := by
    rw [List.length_take, c8_entries_length]; omega
  cases hc : c8_entries.take 200 with
  | nil => rw [hc] at h; simp at h
  | cons a t => rfl

theorem c8_isEmpty_rev : (c8_entries.reverse.take 200).isEmpty = false := by
  have h : (c8_entries.reverse.take 200).length = 200 := by
    rw [List.length_take, List.length_reverse, c8_entries_length]; omega
  cases hc : c8_entries.reverse.take 200 with
  | nil => rw [hc] at h; simp at h
  | cons a t => rfl

theorem c8_head_id : (c8_entries.take 200)[0]? = some (1000, c8_datum 0) := by
  rw [List.getElem?_take_of_lt (by norm_num)]
  simp [c8_entries, List.getElem?_range (by norm_num : (0 : Nat) < 201)]

theorem c8_head_rev : (c8_entries.reverse.take 200)[0]? = some (1000, c8_datum 200) := by
  rw [List.getElem?_take_of_lt (by norm_num)]
  rw [List.getElem?_reverse (by rw [c8_entries_length]; norm_num)]
  simp only [c8_entries_length]
  norm_num
  simp [c8_entries, List.getElem?_range (by norm_num : (200 : Nat) < 201)]

theorem c8_datum_message_ne : (c8_datum 0).message ≠ (c8_datum 200).message := by decide

/-- C8: a published batch never exceeds 200 entries — for every record,
oracle result, choice function and shuffle, the candidate list is shuffled
and then truncated (`round_gossip[:200]`) before the single publish; and the
sampling genuinely depends on the random draw: on a record with 201
decodable payloads, two different shuffles (both permutations of the
candidate list) publish two different batches. -/
theorem claim_C8_gossip_cap :
    (∀ (prevRound prevStage : Int) (oracle : Except Unit (Int × Int))
        (store : Int → Option (List (List Nat × List Nat)))
        (pick : List Value → Value)
        (shuffle : List (Int × GossipDatum) → List (Int × GossipDatum))
        (nameOf : List Nat → List Nat) (nowTs : Int)
        (batch : List (Int × GossipDatum)),
      (poll_once prevRound prevStage oracle store pick shuffle nameOf nowTs).published
          = some batch →
      batch.length ≤ 200)
    ∧ (∃ σ τ : List (Int × GossipDatum) → List (Int × GossipDatum),
        (∀ l, (σ l).Perm l) ∧ (∀ l, (τ l).Perm l)
        ∧ (poll_once (-1) (-1) (.ok (2, 0)) c8_store c8_pick σ id 1000).published
            ≠ (poll_once (-1) (-1) (.ok (2, 0)) c8_store c8_pick τ id 1000).published
        ∧ ((poll_once (-1) (-1) (.ok (2, 0)) c8_store c8_pick σ id 1000).published).isSome
            = true) := by
  constructor
  · intro pr ps oracle store pick shuffle nameOf nowTs batch h
    unfold poll_once at h
    split at h
    · simp at h
    · split at h
      · simp at h
      · split at h
        · simp at h
        · dsimp only [] at h
          split at h
          · simp at h
          · simp only [Option.some.injEq] at h
            subst h
            rw [List.length_take]
            exact Nat.min_le_left _ _
  · refine ⟨id, List.reverse, fun l => List.Perm.refl l, fun l => l.reverse_perm, ?_, ?_⟩
    · rw [c8_poll_published id, c8_poll_published List.reverse]
      simp only [id_eq]
      rw [if_neg (by simp [c8_isEmpty_id]), if_neg (by simp [c8_isEmpty_rev])]
      intro hcon
      rw [Option.some.injEq] at hcon
      have h0 := congrArg (fun l => l[0]?) hcon
      simp only [] at h0
      rw [c8_head_id, c8_head_rev] at h0
      simp only [Option.some.injEq, Prod.mk.injEq] at h0
      exact c8_datum_message_ne (congrArg GossipDatum.message h0.2)
    · rw [c8_poll_published id]
      simp only [id_eq]
      rw [if_neg (by simp [c8_isEmpty_id])]
      rfl

theorem claim_C8_gossip_cap_witness :
    (poll_once (-1) (-1) (.ok (2, 0)) c8_store c8_pick id id 1000).published
        = some (c8_entries.take 200)
    ∧ (c8_entries.take 200).length ≤ 200 := by
  have hpub : (poll_once (-1) (-1) (.ok (2, 0)) c8_store c8_pick id id 1000).published
      = some (c8_entries.take 200) := by
    rw [c8_poll_published id]
    simp only [id_eq]
    rw [if_neg (by simp [c8_isEmpty_id])]
  exact ⟨hpub,
    claim_C8_gossip_cap.1 (-1) (-1) (.ok (2, 0)) c8_store c8_pick id id 1000 _ hpub⟩

end RlSwarm
